import Mathlib

/-!
Verification of the `arima_c.c` statistics module (linear detrending, ARMA(1,1)
estimation, ACF, PACF with AIC-based order selection, Box-Cox transform).

Modelling conventions:
* C `float` arithmetic is idealised as exact arithmetic over `ℚ` (over `ℝ` for
  the Box-Cox transform, whose `pow(x, 0.5)` is transcendental).  The C library
  function `log` inside the AIC score is abstracted as a parameter
  `rlog : ℚ → ℚ`; every theorem about PACF holds for an arbitrary `rlog`.
* A memory buffer is a total function `ℕ → ℚ`; a C store `result[i] = v` is
  `upd res i v`.  Each entry point takes the prior contents of its output
  buffer (`res0`) so that which indices are (not) written is observable.
* `pacf` reads `r[-1]` (one slot before its local variable-length array) in
  both coefficient passes; that out-of-bounds stack read is modelled by an
  explicit garbage value `g`, the value of `r` at index `-1`.  The local array
  `r` is therefore a function `ℤ → ℚ`.
* C `int` loop bounds and lengths are `ℕ`; `n - 1` and `m / 4` appearing in
  the source are ℕ-subtraction/truncating division exactly where the C code
  cannot go negative, and explicit casts `(n : ℚ) - 1` where it can.
* The heap-level versions (suffix `H`) model the same functions on a single
  address space `ℕ → ℚ` with the input at base pointer `p` and the output at
  base pointer `q`, for the aliasing/frame claim.
-/

namespace ArimaC

/-- A buffer of rational values indexed by address/offset. -/
abbrev Buf := ℕ → ℚ

/-- A buffer of real values (used for the Box-Cox transform). -/
abbrev RBuf := ℕ → ℝ

/-- Pointwise store: `upd f i v` is `f` with slot `i` overwritten by `v`. -/
def upd {α : Type} (f : ℕ → α) (i : ℕ) (v : α) : ℕ → α :=
  fun j => if j = i then v else f j

/-! ### linear_detrend (arima_c.c lines 45-74) -/

/-- `x_mean` of `linear_detrend`: mean of the index axis `0..n-1`. -/
def lin_x_mean (n : ℕ) : ℚ := (∑ i in Finset.range n, (i : ℚ)) / n

/-- `y_mean` of `linear_detrend`: mean of the data values. -/
def lin_y_mean (x : Buf) (n : ℕ) : ℚ := (∑ i in Finset.range n, x i) / n

/-- `xy_cov` of `linear_detrend`: `(Σ i·data[i]) / n`. -/
def lin_xy_cov (x : Buf) (n : ℕ) : ℚ := (∑ i in Finset.range n, (i : ℚ) * x i) / n

/-- `x_var` of `linear_detrend`: the sum `Σ (i - x_mean)²` — the source never
divides this accumulator by `n`. -/
def lin_x_var (n : ℕ) : ℚ := ∑ i in Finset.range n, ((i : ℚ) - lin_x_mean n) ^ 2

/-- `slope = (xy_cov - x_mean*y_mean) / x_var` from the source. -/
def lin_slope (x : Buf) (n : ℕ) : ℚ :=
  (lin_xy_cov x n - lin_x_mean n * lin_y_mean x n) / lin_x_var n

/-- `intercept = y_mean - slope*x_mean` from the source. -/
def lin_intercept (x : Buf) (n : ℕ) : ℚ :=
  lin_y_mean x n - lin_slope x n * lin_x_mean n

/-- `linear_detrend`: writes `result[i] = data[i] - (slope*i + intercept)` for
`i = 0..n-1` over the prior output contents `res0`. -/
def linear_detrend (x res0 : Buf) (n : ℕ) : Buf :=
  (List.range n).foldl
    (fun res i => upd res i (x i - (lin_slope x n * i + lin_intercept x n))) res0

/-! ### ARMA estimation (arima_c.c lines 85-132 and 143-163) -/

/-- Mean of the first `n` entries, as computed by both ARMA entry points. -/
def armaMean (x : Buf) (n : ℕ) : ℚ := (∑ i in Finset.range n, x i) / n

/-- One-step residual
`error = data[i] - mu - phi*data[i-1] - theta*(data[i-1] - mu)`. -/
def armaError (phi theta mu : ℚ) (x : Buf) (i : ℕ) : ℚ :=
  x i - mu - phi * x (i - 1) - theta * (x (i - 1) - mu)

/-- One-step prediction `mu + phi*data[i-1] + theta*error`. -/
def armaPredict (phi theta mu : ℚ) (x : Buf) (i : ℕ) : ℚ :=
  mu + phi * x (i - 1) + theta * armaError phi theta mu x i

/-- One iteration of the `arima_autoParams` update: accumulate `sum_xy`,
`sum_x_sq`, `sum_error_sq` over `i = 1..n-1`, then
`phi = sum_xy/sum_x_sq` and `theta = (sum_error_sq - phi*sum_xy)/(n-1)`. -/
def fitUpdate (x : Buf) (n : ℕ) (mu : ℚ) (st : ℚ × ℚ) : ℚ × ℚ :=
  let sum_xy := ∑ i in Finset.Ico 1 n, x (i - 1) * armaError st.1 st.2 mu x i
  let sum_x_sq := ∑ i in Finset.Ico 1 n, x (i - 1) * x (i - 1)
  let sum_error_sq := ∑ i in Finset.Ico 1 n, (armaError st.1 st.2 mu x i) ^ 2
  let phi := sum_xy / sum_x_sq
  (phi, (sum_error_sq - phi * sum_xy) / ((n : ℚ) - 1))

/-- Square of the convergence tolerance `1e-6` of `arima_autoParams`.  The
source compares `sqrt(diff_phi² + diff_theta²) < 1e-6`; over nonnegative
arguments this is equivalent to comparing the squared norm against `TOL2`
(the equivalence with `Real.sqrt` is proved in the C3 theorem). -/
def TOL2 : ℚ := (1 / 1000000) ^ 2

/-- The sequence of `(phi, theta)` iterates of `arima_autoParams`, starting
from the seeds `(0.3, -0.2)`; `mu` is computed once and never updated. -/
def fitIter (x : Buf) (n : ℕ) : ℕ → ℚ × ℚ
  | 0 => (3 / 10, -(2 / 10))
  | k + 1 => fitUpdate x n (armaMean x n) (fitIter x n k)

/-- Squared Euclidean norm of the parameter change over iteration `k`
(the quantity whose square root the source compares against `1e-6`). -/
def fitDiffSq (x : Buf) (n : ℕ) (k : ℕ) : ℚ :=
  ((fitIter x n (k + 1)).1 - (fitIter x n k).1) ^ 2 +
    ((fitIter x n (k + 1)).2 - (fitIter x n k).2) ^ 2

/-- The bounded update loop of `arima_autoParams`: runs at most `fuel`
iterations starting from state `st`; returns the final state, the number of
iterations executed, and whether the convergence `break` was taken. -/
def fitLoop (x : Buf) (n : ℕ) (mu : ℚ) : ℚ × ℚ → ℕ → (ℚ × ℚ) × ℕ × Bool
  | st, 0 => (st, 0, false)
  | st, fuel + 1 =>
    let st' := fitUpdate x n mu st
    if (st'.1 - st.1) ^ 2 + (st'.2 - st.2) ^ 2 < TOL2 then (st', 1, true)
    else
      let rest := fitLoop x n mu st' fuel
      (rest.1, rest.2.1 + 1, rest.2.2)

/-- The full iterative fit of `arima_autoParams`: seeds `(0.3, -0.2)`,
budget `MAX_ITERATIONS = 1000`. -/
def arimaFit (x : Buf) (n : ℕ) : (ℚ × ℚ) × ℕ × Bool :=
  fitLoop x n (armaMean x n) (3 / 10, -(2 / 10)) 1000

/-- Final AR coefficient after the iterative fit. -/
def arimaPhi (x : Buf) (n : ℕ) : ℚ := (arimaFit x n).1.1

/-- Final MA coefficient after the iterative fit. -/
def arimaTheta (x : Buf) (n : ℕ) : ℚ := (arimaFit x n).1.2

/-- Number of update iterations the fit loop executed. -/
def arimaIterCount (x : Buf) (n : ℕ) : ℕ := (arimaFit x n).2.1

/-- Whether the fit loop exited through the convergence `break`. -/
def arimaConverged (x : Buf) (n : ℕ) : Bool := (arimaFit x n).2.2

/-- The prediction loop shared verbatim by `arima_autoParams` and
`arima_setParams`: writes `prediction[i]` for `i = 1..n-1` only. -/
def arma_predict_pass (x res0 : Buf) (n : ℕ) (phi theta mu : ℚ) : Buf :=
  (List.range' 1 (n - 1)).foldl
    (fun res i => upd res i (armaPredict phi theta mu x i)) res0

/-- `arima_autoParams`: iterative fit followed by the prediction pass. -/
def arima_autoParams (x res0 : Buf) (n : ℕ) : Buf :=
  arma_predict_pass x res0 n (arimaPhi x n) (arimaTheta x n) (armaMean x n)

/-- `arima_setParams`: interprets its third argument as a byte length
(`n = m / sizeof(float) = m / 4`, truncating), uses the fixed seeds
`phi = 0.5`, `theta = 0.2`, computes `mu` over those `n` elements, and runs
the single prediction pass with no iterative refinement. -/
def arima_setParams (x res0 : Buf) (m : ℕ) : Buf :=
  arma_predict_pass x res0 (m / 4) (1 / 2) (2 / 10) (armaMean x (m / 4))

/-! ### acf (arima_c.c lines 174-199) -/

/-- `mean` as computed by `acf`. -/
def acf_mean (x : Buf) (n : ℕ) : ℚ := (∑ i in Finset.range n, x i) / n

/-- `var` as computed by `acf`: `(Σ (data[i]-mean)²) / n`. -/
def acf_var (x : Buf) (n : ℕ) : ℚ :=
  (∑ i in Finset.range n, (x i - acf_mean x n) ^ 2) / n

/-- The autocovariance accumulator `ac` of `acf` at lag `i`. -/
def acf_ac (x : Buf) (n i : ℕ) : ℚ :=
  ∑ j in Finset.Ico i n, (x j - acf_mean x n) * (x (j - i) - acf_mean x n)

/-- The value stored by the `acf` loop: `ac / ((n-i)*var)`. -/
def acf_raw (x : Buf) (n i : ℕ) : ℚ :=
  acf_ac x n i / (((n : ℚ) - i) * acf_var x n)

/-- `acf`: the lag loop writes `result[i]` for `i = 0..n-1`, then the source
unconditionally halves `result[0]`. -/
def acf (x res0 : Buf) (n : ℕ) : Buf :=
  let loopRes := (List.range n).foldl (fun res i => upd res i (acf_raw x n i)) res0
  upd loopRes 0 (loopRes 0 / 2)

/-! ### pacf (arima_c.c lines 210-297) -/

/-- The local array `r` of `pacf` (a copy of the input), extended to index
`-1` by the stack-garbage value `g` that the source reads out of bounds. -/
def pacfR (x : Buf) (n : ℕ) (g : ℚ) : ℤ → ℚ :=
  fun i => if 0 ≤ i ∧ i < (n : ℤ) then x i.toNat else g

/-- The partial residual `y` at row `i` for candidate order `k`:
`y = r[i] - Σ_{j<k} phi[j]*r[i-j-1]`. -/
def pacfY (r : ℤ → ℚ) (phi : Buf) (k i : ℕ) : ℚ :=
  r i - ∑ j in Finset.range k, phi j * r ((i : ℤ) - (j : ℤ) - 1)

/-- `num = Σ_{i=k}^{n-1} r[i-k-1]*y` (at `i = k` this reads `r[-1]`). -/
def pacfNum (r : ℤ → ℚ) (phi : Buf) (k n : ℕ) : ℚ :=
  ∑ i in Finset.Ico k n, r ((i : ℤ) - (k : ℤ) - 1) * pacfY r phi k i

/-- `den = Σ_{i=k}^{n-1} y²`. -/
def pacfDen (r : ℤ → ℚ) (phi : Buf) (k n : ℕ) : ℚ :=
  ∑ i in Finset.Ico k n, (pacfY r phi k i) ^ 2

/-- The guarded coefficient division of `pacf`:
`phi[k] = 0` when `den == 0`, else `num/den`. -/
def levinson (num den : ℚ) : ℚ := if den = 0 then 0 else num / den

/-- The coefficient `phi[k]` computed by a `pacf` pass at order `k`. -/
def pacfPhiK (r : ℤ → ℚ) (phi : Buf) (k n : ℕ) : ℚ :=
  levinson (pacfNum r phi k n) (pacfDen r phi k n)

/-- The value of `pacf_result[k]` after the correction loop
`pacf_result[k] -= phi[j]*pacf_result[k-j-1]` (`j = 0..k-1`; the loop only
reads entries below `k`, so the sequential subtractions equal this sum; the
`phi[j]` it reads, `j < k`, are unchanged by the write of `phi[k]`). -/
def pacfResK (r : ℤ → ℚ) (phi res : Buf) (k n : ℕ) : ℚ :=
  pacfPhiK r phi k n - ∑ j in Finset.range k, phi j * res (k - j - 1)

/-- Residual sum of squares for the model of order `m = k+1`:
`rss = Σ_{i=m}^{n-1} (r[i] - Σ_{j=1}^{m} phi[j-1]*r[i-j])²`, evaluated with
`phi[k]` already updated. -/
def pacfRss (r : ℤ → ℚ) (phi : Buf) (k n : ℕ) : ℚ :=
  ∑ i in Finset.Ico (k + 1) n,
    (r i - ∑ j in Finset.Icc 1 (k + 1), phi (j - 1) * r ((i : ℤ) - (j : ℤ))) ^ 2

/-- The AIC score computed at candidate order `k`:
`log(rss/n) + 2*(k+1)/n`, with `phi[k]` freshly written. -/
def pacfAicK (rlog : ℚ → ℚ) (r : ℤ → ℚ) (phi : Buf) (k n : ℕ) : ℚ :=
  rlog (pacfRss r (upd phi k (pacfPhiK r phi k n)) k n / n) + 2 * ((k : ℚ) + 1) / n

/-- Running-minimum step for `(min_aic, max_lag)`; `none` models the
`INFINITY` initialisation, against which any score compares as smaller. -/
def pacfSelStep (cur : Option ℚ × ℕ) (a : ℚ) (k : ℕ) : Option ℚ × ℕ :=
  match cur with
  | (none, _) => (some a, k)
  | (some m0, l) => if a < m0 then (some a, k) else (some m0, l)

/-- State of the exploratory (first) `pacf` pass. -/
structure PacfSt where
  phi : Buf
  res : Buf
  minAic : Option ℚ
  maxLag : ℕ

/-- One iteration of the exploratory pass at candidate order `k`: write
`phi[k]` and `pacf_result[k]`, score the order by AIC, track the minimum. -/
def pacfStep (rlog : ℚ → ℚ) (r : ℤ → ℚ) (n : ℕ) (s : PacfSt) (k : ℕ) : PacfSt :=
  ⟨upd s.phi k (pacfPhiK r s.phi k n),
   upd s.res k (pacfResK r s.phi s.res k n),
   (pacfSelStep (s.minAic, s.maxLag) (pacfAicK rlog r s.phi k n) k).1,
   (pacfSelStep (s.minAic, s.maxLag) (pacfAicK rlog r s.phi k n) k).2⟩

/-- The states of the exploratory pass: `pacfStates … m` is the state after
the first `m` iterations (`k = 0..m-1`); the pass itself runs `n` of them.
`phi0` is the initial (stack-garbage) contents of the local `phi` array and
`res0` the prior contents of the output buffer. -/
def pacfStates (x res0 phi0 : Buf) (g : ℚ) (rlog : ℚ → ℚ) (n : ℕ) : ℕ → PacfSt
  | 0 => ⟨phi0, res0, none, 0⟩
  | m + 1 => pacfStep rlog (pacfR x n g) n (pacfStates x res0 phi0 g rlog n m) m

/-- The AIC score assigned to candidate order `k` during the exploratory pass. -/
def pacfAicAt (x res0 phi0 : Buf) (g : ℚ) (rlog : ℚ → ℚ) (n k : ℕ) : ℚ :=
  pacfAicK rlog (pacfR x n g) (pacfStates x res0 phi0 g rlog n k).phi k n

/-- The residual sum of squares of the order-`(k+1)` model used in that score. -/
def pacfRssAt (x res0 phi0 : Buf) (g : ℚ) (rlog : ℚ → ℚ) (n k : ℕ) : ℚ :=
  pacfRss (pacfR x n g)
    (upd (pacfStates x res0 phi0 g rlog n k).phi k
      (pacfPhiK (pacfR x n g) (pacfStates x res0 phi0 g rlog n k).phi k n))
    k n

/-- One iteration of the recomputation (second) pass: identical coefficient
code, no AIC bookkeeping; operates on the `(phi, result)` pair. -/
def pacfStep2 (r : ℤ → ℚ) (n : ℕ) (pr : Buf × Buf) (k : ℕ) : Buf × Buf :=
  (upd pr.1 k (pacfPhiK r pr.1 k n), upd pr.2 k (pacfResK r pr.1 pr.2 k n))

/-- `pacf`: exploratory pass over `k = 0..n-1` selecting `max_lag`, then the
recomputation pass over `k = 0..max_lag` only; returns the output buffer. -/
def pacf (x res0 phi0 : Buf) (g : ℚ) (rlog : ℚ → ℚ) (n : ℕ) : Buf :=
  let s1 := pacfStates x res0 phi0 g rlog n n
  ((List.range (s1.maxLag + 1)).foldl (pacfStep2 (pacfR x n g) n) (s1.phi, s1.res)).2

/-! ### boxcox_transform (arima_c.c lines 307-319) -/

/-- The hard-coded `lambda = 0.5` of the source (a `float` literal, stored
exactly; kept rational so the dead `lambda == 0` comparison stays decidable). -/
def lambdaBC : ℚ := 1 / 2

/-- `boxcox_transform`: `result[i] = log(data[i])` if `lambda == 0`, else
`(data[i]^lambda - 1)/lambda`, for `i = 0..n-1`; real-valued because of the
fractional power. -/
noncomputable def boxcox_transform (x : RBuf) (res0 : RBuf) (n : ℕ) : RBuf :=
  (List.range n).foldl
    (fun res i =>
      upd res i
        (if lambdaBC = 0 then Real.log (x i)
         else (x i ^ (lambdaBC : ℝ) - 1) / (lambdaBC : ℝ))) res0

/-! ### Division-checked variants (for the guard claim C9)

These repeat `linear_detrend` and `acf` verbatim except that every division
performed by the source goes through `fdiv`, which returns `none` when the
denominator is zero — the case where the C float division would produce the
NaN/Infinity that the unguarded source propagates into the output. -/

/-- Checked division: `none` models the degenerate (NaN/Infinity-producing)
float division by zero. -/
def fdiv (a b : ℚ) : Option ℚ := if b = 0 then none else some (a / b)

/-- `linear_detrend` with every division checked; entry `i` of the output. -/
def linear_detrendChecked (x : Buf) (n i : ℕ) : Option ℚ :=
  (fdiv (∑ j in Finset.range n, (j : ℚ)) n).bind fun xm =>
  (fdiv (∑ j in Finset.range n, x j) n).bind fun ym =>
  (fdiv (∑ j in Finset.range n, (j : ℚ) * x j) n).bind fun xyc =>
  (fdiv (xyc - xm * ym) (∑ j in Finset.range n, ((j : ℚ) - xm) ^ 2)).bind fun slope =>
  some (x i - (slope * i + (ym - slope * xm)))

/-- `acf` with every division checked; entry `i` of the output (including the
final halving of entry `0`). -/
def acfChecked (x : Buf) (n i : ℕ) : Option ℚ :=
  (fdiv (∑ j in Finset.range n, x j) n).bind fun m =>
  (fdiv (∑ j in Finset.range n, (x j - m) ^ 2) n).bind fun v =>
  (fdiv (∑ j in Finset.Ico i n, (x j - m) * (x (j - i) - m)) (((n : ℚ) - i) * v)).bind fun ac =>
  if i = 0 then fdiv ac 2 else some ac

/-! ### Heap-level versions (for the frame claim C10)

One address space `H : ℕ → ℚ`; the input buffer starts at pointer `p`, the
output buffer at pointer `q`.  Scalar phases that the source completes before
its first store read the initial heap; write loops thread the heap so that
every load and store happens at its place in program order. -/

/-- Heap-level `linear_detrend`. -/
def linear_detrendH (H : Buf) (p q n : ℕ) : Buf :=
  (List.range n).foldl
    (fun st i =>
      upd st (q + i)
        (st (p + i) -
          (lin_slope (fun a => H (p + a)) n * i + lin_intercept (fun a => H (p + a)) n)))
    H

/-- Heap-level prediction pass shared by both ARMA entry points. -/
def arma_predict_passH (H : Buf) (p q n : ℕ) (phi theta mu : ℚ) : Buf :=
  (List.range' 1 (n - 1)).foldl
    (fun st i =>
      upd st (q + i)
        (mu + phi * st (p + (i - 1)) +
          theta * (st (p + i) - mu - phi * st (p + (i - 1)) -
            theta * (st (p + (i - 1)) - mu))))
    H

/-- Heap-level `arima_autoParams` (the fit loop only reads the input and
precedes every store). -/
def arima_autoParamsH (H : Buf) (p q n : ℕ) : Buf :=
  arma_predict_passH H p q n (arimaPhi (fun a => H (p + a)) n)
    (arimaTheta (fun a => H (p + a)) n) (armaMean (fun a => H (p + a)) n)

/-- Heap-level `arima_setParams` (byte-length argument `m`). -/
def arima_setParamsH (H : Buf) (p q m : ℕ) : Buf :=
  arma_predict_passH H p q (m / 4) (1 / 2) (2 / 10)
    (armaMean (fun a => H (p + a)) (m / 4))

/-- Heap-level `acf`; the unconditional halving of `result[0]` writes `q`. -/
def acfH (H : Buf) (p q n : ℕ) : Buf :=
  let m := acf_mean (fun a => H (p + a)) n
  let v := acf_var (fun a => H (p + a)) n
  let H1 :=
    (List.range n).foldl
      (fun st i =>
        upd st (q + i)
          ((∑ j in Finset.Ico i n, (st (p + j) - m) * (st (p + (j - i)) - m)) /
            (((n : ℚ) - i) * v)))
      H
  upd H1 q (H1 q / 2)

/-- State of the heap-level exploratory `pacf` pass. -/
structure PacfStH where
  phi : Buf
  heap : Buf
  minAic : Option ℚ
  maxLag : ℕ

/-- Heap-level exploratory-pass iteration (stores `pacf_result[k]` at `q+k`
and reads the correction entries at `q+(k-j-1)`). -/
def pacfStepH (rlog : ℚ → ℚ) (r : ℤ → ℚ) (n q : ℕ) (s : PacfStH) (k : ℕ) : PacfStH :=
  ⟨upd s.phi k (pacfPhiK r s.phi k n),
   upd s.heap (q + k) (pacfResK r s.phi (fun a => s.heap (q + a)) k n),
   (pacfSelStep (s.minAic, s.maxLag) (pacfAicK rlog r s.phi k n) k).1,
   (pacfSelStep (s.minAic, s.maxLag) (pacfAicK rlog r s.phi k n) k).2⟩

/-- Heap-level recomputation-pass iteration. -/
def pacfStep2H (r : ℤ → ℚ) (n q : ℕ) (pr : Buf × Buf) (k : ℕ) : Buf × Buf :=
  (upd pr.1 k (pacfPhiK r pr.1 k n),
   upd pr.2 (q + k) (pacfResK r pr.1 (fun a => pr.2 (q + a)) k n))

/-- The heap-level exploratory pass of `pacf` (the local array `r` is a copy
of the input region taken before any store). -/
def pacfPass1H (H : Buf) (p q n : ℕ) (g : ℚ) (phi0 : Buf) (rlog : ℚ → ℚ) : PacfStH :=
  (List.range n).foldl (pacfStepH rlog (pacfR (fun a => H (p + a)) n g) n q)
    ⟨phi0, H, none, 0⟩

/-- Heap-level `pacf`: copies the input into the local `r`, runs both passes
against the heap-resident output buffer. -/
def pacfH (H : Buf) (p q n : ℕ) (g : ℚ) (phi0 : Buf) (rlog : ℚ → ℚ) : Buf :=
  ((List.range ((pacfPass1H H p q n g phi0 rlog).maxLag + 1)).foldl
    (pacfStep2H (pacfR (fun a => H (p + a)) n g) n q)
    ((pacfPass1H H p q n g phi0 rlog).phi, (pacfPass1H H p q n g phi0 rlog).heap)).2

/-- Heap-level `boxcox_transform`. -/
noncomputable def boxcox_transformH (G : RBuf) (p q n : ℕ) : RBuf :=
  (List.range n).foldl
    (fun st i =>
      upd st (q + i)
        (if lambdaBC = 0 then Real.log (st (p + i))
         else (st (p + i) ^ (lambdaBC : ℝ) - 1) / (lambdaBC : ℝ)))
    G

/-! ### Concrete inputs used in closed theorems and witnesses -/

/-- The series `value[i] = i` (exactly linear in the index, `a = 1, b = 0`). -/
def linBuf : Buf := fun i => (i : ℚ)

/-- An all-zero buffer. -/
def zeroBuf : Buf := fun _ => 0

/-- A constant buffer of sevens (a degenerate, zero-variance series). -/
def sevenBuf : Buf := fun _ => 7

/-- The series `1, 2, 3, 4, 5, …` (`value[i] = i + 1`). -/
def onePlusBuf : Buf := fun i => (i : ℚ) + 1

/-- The real series `4, 9, 16, …` (`value[i] = (i+2)²`). -/
def sqBuf : RBuf := fun i => ((i : ℝ) + 2) ^ 2

/-- An all-zero real buffer. -/
def zeroRBuf : RBuf := fun _ => 0

/-- A constant real heap. -/
def sevenRBuf : RBuf := fun _ => 7

/-! ## Helper lemmas -/

theorem upd_same {α : Type} (f : ℕ → α) (i : ℕ) (v : α) : upd f i v i = v := by
  simp [upd]

theorem upd_ne {α : Type} (f : ℕ → α) (i j : ℕ) (v : α) (h : j ≠ i) :
    upd f i v j = f j := by
  simp [upd, h]

/-- Pointwise value of a write loop whose stored value does not depend on the
buffer being written: slot `j` holds `v j` if `j` is among the written
indices, else its prior content. -/
theorem foldl_upd_apply {α : Type} (v : ℕ → α) :
    ∀ (l : List ℕ) (res0 : ℕ → α) (j : ℕ),
      (l.foldl (fun res i => upd res i (v i)) res0) j =
        if j ∈ l then v j else res0 j := by
  intro l
  induction l with
  | nil => intro res0 j; simp
  | cons a t ih =>
    intro res0 j
    simp only [List.foldl_cons, ih, List.mem_cons]
    by_cases hj : j ∈ t
    · simp [hj]
    · by_cases ha : j = a
      · subst ha; simp [hj, upd_same]
      · simp [hj, ha, upd_ne _ _ _ _ ha]

/-- Frame property of a heap write loop that stores only at offsets `q + i`
for listed `i` (the stored values may read the evolving heap). -/
theorem foldl_upd_offset_ne {α : Type} (g : (ℕ → α) → ℕ → α) (q : ℕ) :
    ∀ (l : List ℕ) (H : ℕ → α) (a : ℕ), (∀ i ∈ l, a ≠ q + i) →
      (l.foldl (fun st i => upd st (q + i) (g st i)) H) a = H a := by
  intro l
  induction l with
  | nil => intro H a _; rfl
  | cons b t ih =>
    intro H a h
    simp only [List.foldl_cons]
    rw [ih _ _ fun i hi => h i (List.mem_cons_of_mem b hi),
      upd_ne _ _ _ _ (h b (List.mem_cons_self b t))]

/-- Pointwise value of `linear_detrend`. -/
theorem linear_detrend_apply (x res0 : Buf) (n j : ℕ) :
    linear_detrend x res0 n j =
      if j < n then x j - (lin_slope x n * j + lin_intercept x n) else res0 j := by
  rw [linear_detrend, foldl_upd_apply]
  simp [List.mem_range]

/-- Pointwise value of the shared ARMA prediction pass: only indices
`1..n-1` are written. -/
theorem arma_predict_pass_apply (x res0 : Buf) (n : ℕ) (phi theta mu : ℚ) (j : ℕ) :
    arma_predict_pass x res0 n phi theta mu j =
      if 1 ≤ j ∧ j < n then armaPredict phi theta mu x j else res0 j := by
  rw [arma_predict_pass, foldl_upd_apply]
  have : j ∈ List.range' 1 (n - 1) ↔ 1 ≤ j ∧ j < n := by
    rw [List.mem_range'_1]
    omega
  by_cases h : 1 ≤ j ∧ j < n
  · rw [if_pos (this.mpr h), if_pos h]
  · rw [if_neg (fun hm => h (this.mp hm)), if_neg h]

/-- Pointwise value of `acf`. -/
theorem acf_apply (x res0 : Buf) (n j : ℕ) :
    acf x res0 n j =
      if j = 0 then (if 0 < n then acf_raw x n 0 else res0 0) / 2
      else if j < n then acf_raw x n j else res0 j := by
  rw [acf]
  by_cases h0 : j = 0
  · subst h0
    rw [upd_same, foldl_upd_apply]
    simp [List.mem_range]
  · rw [upd_ne _ _ _ _ h0, foldl_upd_apply, if_neg h0]
    simp [List.mem_range]

/-- Pointwise value of `boxcox_transform`. -/
theorem boxcox_transform_apply (x res0 : RBuf) (n j : ℕ) :
    boxcox_transform x res0 n j =
      if j < n then (x j ^ (lambdaBC : ℝ) - 1) / (lambdaBC : ℝ) else res0 j := by
  rw [boxcox_transform, foldl_upd_apply]
  simp only [List.mem_range]
  rw [if_neg (by norm_num [lambdaBC] : ¬ lambdaBC = 0)]

/-! ## Claim C1 -/

/-- Claim C1 (code bug): the spec says a series exactly linear in its index
(`value[i] = a·i + b`, here `a = 1, b = 0`, `n = 3`) detrends to values all
within `1e-4` of zero, but `linear_detrend` divides the `1/n`-scaled
covariance by the unscaled deviation sum, so the slope comes out `a/n`
instead of `a`: the output is `(-2/3, 0, 2/3)` and its first entry exceeds
the tolerance by a factor of several thousand. -/
theorem c1_linear_detrend_misses_linear_trend :
    linear_detrend linBuf zeroBuf 3 0 = -(2 / 3) ∧
    linear_detrend linBuf zeroBuf 3 1 = 0 ∧
    linear_detrend linBuf zeroBuf 3 2 = 2 / 3 ∧
    ¬ |linear_detrend linBuf zeroBuf 3 0| ≤ 1 / 10000 := by
  have h0 : linear_detrend linBuf zeroBuf 3 0 = -(2 / 3) := by
    rw [linear_detrend_apply]
    norm_num [linBuf, lin_slope, lin_intercept, lin_xy_cov, lin_x_mean,
      lin_y_mean, lin_x_var, Finset.sum_range_succ]
  refine ⟨h0, ?_, ?_, ?_⟩
  · rw [linear_detrend_apply]
    norm_num [linBuf, lin_slope, lin_intercept, lin_xy_cov, lin_x_mean,
      lin_y_mean, lin_x_var, Finset.sum_range_succ]
  · rw [linear_detrend_apply]
    norm_num [linBuf, lin_slope, lin_intercept, lin_xy_cov, lin_x_mean,
      lin_y_mean, lin_x_var, Finset.sum_range_succ]
  · rw [h0, abs_neg, abs_of_pos (by norm_num : (0 : ℚ) < 2 / 3)]
    norm_num

/-! ## Claim C4 -/

/-- The zero-lag autocovariance accumulator is the deviation-square sum. -/
theorem acf_ac_zero (x : Buf) (n : ℕ) :
    acf_ac x n 0 = ∑ j in Finset.range n, (x j - acf_mean x n) ^ 2 := by
  rw [acf_ac, Finset.range_eq_Ico]
  exact Finset.sum_congr rfl fun j _ => by rw [Nat.sub_zero, pow_two]

/-- Claim C4: for `n ≥ 1` and nonzero sample variance, `acf` writes
`result[i] = (Σ_{j=i}^{n-1} (data[j]-mean)(data[j-i]-mean)) / ((n-i)·var)`
for every lag `i = 1..n-1`, and `result[0]` is the lag-0 value halved, which
is exactly `1/2` for any such series (normalisation cancels the scale). -/
theorem c4_acf_values (x res0 : Buf) (n i : ℕ) (hn : 1 ≤ n)
    (hv : acf_var x n ≠ 0) (h1 : 1 ≤ i) (h2 : i < n) :
    acf x res0 n i = acf_ac x n i / (((n : ℚ) - i) * acf_var x n) ∧
    acf x res0 n 0 = 1 / 2 := by
  constructor
  · rw [acf_apply, if_neg (by omega), if_pos h2, acf_raw]
  · have hn' : (n : ℚ) ≠ 0 := Nat.cast_ne_zero.mpr (by omega)
    have hS : (∑ j in Finset.range n, (x j - acf_mean x n) ^ 2) ≠ 0 := by
      intro h
      exact hv (by rw [acf_var, h, zero_div])
    rw [acf_apply, if_pos rfl, if_pos (by omega)]
    rw [acf_raw, acf_ac_zero, acf_var]
    rw [Nat.cast_zero, sub_zero, mul_comm,
      div_mul_cancel₀ _ hn', div_self hS]

/-- Witness for C4 on the series `[1, 2, 3, 4, 5]` at lag `2`. -/
theorem c4_acf_values_witness :
    acf onePlusBuf zeroBuf 5 2 =
      acf_ac onePlusBuf 5 2 / ((((5 : ℕ) : ℚ) - ((2 : ℕ) : ℚ)) * acf_var onePlusBuf 5) ∧
    acf onePlusBuf zeroBuf 5 0 = 1 / 2 :=
  c4_acf_values onePlusBuf zeroBuf 5 2 (by norm_num)
    (by norm_num [acf_var, acf_mean, onePlusBuf, Finset.sum_range_succ])
    (by norm_num) (by norm_num)

/-! ## Claim C6 -/

/-- Claim C6: `arima_setParams` treats its third argument `m` as a byte
length, processing `n = m / 4` elements (truncating division, so any byte
remainder below the element size is ignored); it predicts with the fixed
seeds `phi = 0.5`, `theta = 0.2` and `mu` the mean of those `n` elements, in
a single one-step-ahead pass (index `0` is not written, no iteration). -/
theorem c6_setParams_byte_length (x res0 : Buf) (m q r i : ℕ)
    (hr : r < 4) (h1 : 1 ≤ i) (h2 : i < m / 4) :
    arima_setParams x res0 (4 * q + r) = arima_setParams x res0 (4 * q) ∧
    arima_setParams x res0 m i =
      armaMean x (m / 4) + (1 / 2) * x (i - 1) +
        (2 / 10) * (x i - armaMean x (m / 4) - (1 / 2) * x (i - 1) -
          (2 / 10) * (x (i - 1) - armaMean x (m / 4))) ∧
    arima_setParams x res0 m 0 = res0 0 := by
  refine ⟨?_, ?_, ?_⟩
  · rw [arima_setParams, arima_setParams,
      (by omega : (4 * q + r) / 4 = q), (by omega : 4 * q / 4 = q)]
  · rw [arima_setParams, arma_predict_pass_apply, if_pos ⟨h1, h2⟩,
      armaPredict, armaError]
  · rw [arima_setParams, arma_predict_pass_apply]
    norm_num

/-- Witness for C6: byte length `m = 11` processes `11 / 4 = 2` elements
(the same as `m = 8`), with the fixed-seed prediction at index `1`. -/
theorem c6_setParams_byte_length_witness :
    arima_setParams linBuf sevenBuf (4 * 2 + 3) = arima_setParams linBuf sevenBuf (4 * 2) ∧
    arima_setParams linBuf sevenBuf 11 1 =
      armaMean linBuf (11 / 4) + (1 / 2) * linBuf (1 - 1) +
        (2 / 10) * (linBuf 1 - armaMean linBuf (11 / 4) - (1 / 2) * linBuf (1 - 1) -
          (2 / 10) * (linBuf (1 - 1) - armaMean linBuf (11 / 4))) ∧
    arima_setParams linBuf sevenBuf 11 0 = sevenBuf 0 :=
  c6_setParams_byte_length linBuf sevenBuf 11 2 3 1 (by decide) (by decide) (by decide)

/-! ## Claim C7 -/

/-- Claim C7: after the iterative fit, `arima_autoParams` writes
`prediction[i] = mu + phi·data[i-1] + theta·error[i]` (with
`error[i] = data[i] - mu - phi·data[i-1] - theta·(data[i-1] - mu)`) for every
`i = 1..n-1`, and never writes `prediction[0]`: index 0 keeps the value the
output buffer held before the call. -/
theorem c7_autoParams_prediction (x res0 : Buf) (n i : ℕ)
    (h1 : 1 ≤ i) (h2 : i < n) :
    arima_autoParams x res0 n i =
      armaMean x n + arimaPhi x n * x (i - 1) +
        arimaTheta x n * (x i - armaMean x n - arimaPhi x n * x (i - 1) -
          arimaTheta x n * (x (i - 1) - armaMean x n)) ∧
    arima_autoParams x res0 n 0 = res0 0 := by
  constructor
  · rw [arima_autoParams, arma_predict_pass_apply, if_pos ⟨h1, h2⟩,
      armaPredict, armaError]
  · rw [arima_autoParams, arma_predict_pass_apply]
    norm_num

/-- Witness for C7 at `n = 3`, `i = 1`, with nonzero prior contents at
index 0 (which survive the call). -/
theorem c7_autoParams_prediction_witness :
    arima_autoParams linBuf sevenBuf 3 1 =
      armaMean linBuf 3 + arimaPhi linBuf 3 * linBuf (1 - 1) +
        arimaTheta linBuf 3 * (linBuf 1 - armaMean linBuf 3 - arimaPhi linBuf 3 * linBuf (1 - 1) -
          arimaTheta linBuf 3 * (linBuf (1 - 1) - armaMean linBuf 3)) ∧
    arima_autoParams linBuf sevenBuf 3 0 = sevenBuf 0 :=
  c7_autoParams_prediction linBuf sevenBuf 3 1 (by decide) (by decide)

/-! ## Claim C3 -/

/-- Unfolding of the iterate sequence: one loop-body update. -/
theorem fitIter_succ (x : Buf) (n j : ℕ) :
    fitIter x n (j + 1) = fitUpdate x n (armaMean x n) (fitIter x n j) := rfl

/-- Full characterisation of the bounded update loop started at the `j`-th
iterate with `fuel` iterations remaining: the executed count never exceeds
the fuel; the convergence `break` fires exactly when some in-budget iteration
has squared parameter change below `TOL2`; without the break the count equals
the fuel; and finishing early implies the break fired. -/
theorem fitLoop_spec (x : Buf) (n : ℕ) :
    ∀ (fuel j : ℕ),
      (fitLoop x n (armaMean x n) (fitIter x n j) fuel).2.1 ≤ fuel ∧
      ((fitLoop x n (armaMean x n) (fitIter x n j) fuel).2.2 = true ↔
        ∃ k, k < fuel ∧ fitDiffSq x n (j + k) < TOL2) ∧
      ((fitLoop x n (armaMean x n) (fitIter x n j) fuel).2.2 = false →
        (fitLoop x n (armaMean x n) (fitIter x n j) fuel).2.1 = fuel) ∧
      ((fitLoop x n (armaMean x n) (fitIter x n j) fuel).2.1 < fuel →
        (fitLoop x n (armaMean x n) (fitIter x n j) fuel).2.2 = true) := by
  intro fuel
  induction fuel with
  | zero =>
    intro j
    refine ⟨le_refl 0, ?_, fun _ => rfl, fun h => absurd h (by omega)⟩
    simp [fitLoop]
  | succ f ih =>
    intro j
    have hstep : fitLoop x n (armaMean x n) (fitIter x n j) (f + 1) =
        if fitDiffSq x n j < TOL2 then (fitIter x n (j + 1), 1, true)
        else
          let rest := fitLoop x n (armaMean x n) (fitIter x n (j + 1)) f
          (rest.1, rest.2.1 + 1, rest.2.2) := by
      rw [fitLoop, ← fitIter_succ, fitDiffSq]
    by_cases hc : fitDiffSq x n j < TOL2
    · rw [hstep, if_pos hc]
      refine ⟨?_, ?_, ?_, fun _ => rfl⟩
      · show 1 ≤ f + 1
        omega
      · show true = true ↔ ∃ k, k < f + 1 ∧ fitDiffSq x n (j + k) < TOL2
        simp only [true_iff]
        exact ⟨0, by omega, by simpa using hc⟩
      · exact fun h => Bool.noConfusion h
    · rw [hstep, if_neg hc]
      obtain ⟨ih1, ih2, ih3, ih4⟩ := ih (j + 1)
      refine ⟨?_, ?_, ?_, ?_⟩
      · show (fitLoop x n (armaMean x n) (fitIter x n (j + 1)) f).2.1 + 1 ≤ f + 1
        omega
      · show (fitLoop x n (armaMean x n) (fitIter x n (j + 1)) f).2.2 = true ↔
          ∃ k, k < f + 1 ∧ fitDiffSq x n (j + k) < TOL2
        rw [ih2]
        constructor
        · rintro ⟨k, hk, hd⟩
          exact ⟨k + 1, by omega, by rwa [show j + (k + 1) = j + 1 + k by omega]⟩
        · rintro ⟨k, hk, hd⟩
          rcases Nat.eq_zero_or_pos k with h0 | h0
          · subst h0
            exact absurd (by simpa using hd) hc
          · exact ⟨k - 1, by omega, by rwa [show j + 1 + (k - 1) = j + k by omega]⟩
      · intro hF
        have hF' : (fitLoop x n (armaMean x n) (fitIter x n (j + 1)) f).2.2 = false := hF
        show (fitLoop x n (armaMean x n) (fitIter x n (j + 1)) f).2.1 + 1 = f + 1
        rw [ih3 hF']
      · intro hlt
        have hlt' : (fitLoop x n (armaMean x n) (fitIter x n (j + 1)) f).2.1 + 1 < f + 1 :=
          hlt
        show (fitLoop x n (armaMean x n) (fitIter x n (j + 1)) f).2.2 = true
        exact ih4 (by omega)

/-- The strict comparison `sqrt(d) < 1e-6` performed by the source is, over
exact arithmetic, the comparison of the squared norm against `TOL2`. -/
theorem sqrt_lt_tol_iff (a : ℚ) :
    Real.sqrt (a : ℝ) < 1 / 1000000 ↔ a < TOL2 := by
  rw [Real.sqrt_lt' (by norm_num : (0 : ℝ) < 1 / 1000000),
    show ((1 : ℝ) / 1000000) ^ 2 = ((TOL2 : ℚ) : ℝ) from by norm_num [TOL2]]
  exact_mod_cast Iff.rfl

/-- Claim C3: the parameter-update loop of `arima_autoParams` executes at
most `1000` iterations for every input (hence the call terminates), the
convergence `break` is taken exactly when the Euclidean norm
`sqrt(Δphi² + Δtheta²)` of some in-budget iteration falls below `1e-6`,
stopping with iterations to spare happens only through that `break`, and
without it the full budget of `1000` iterations runs. -/
theorem c3_autoParams_termination (x : Buf) (n : ℕ) :
    arimaIterCount x n ≤ 1000 ∧
    (arimaConverged x n = true ↔
      ∃ k, k < 1000 ∧ Real.sqrt ((fitDiffSq x n k : ℚ) : ℝ) < 1 / 1000000) ∧
    (arimaIterCount x n < 1000 → arimaConverged x n = true) ∧
    (arimaConverged x n = false → arimaIterCount x n = 1000) := by
  have h := fitLoop_spec x n 1000 0
  simp only [zero_add] at h
  have hdef : arimaFit x n = fitLoop x n (armaMean x n) (fitIter x n 0) 1000 := rfl
  obtain ⟨h1, h2, h3, h4⟩ := h
  refine ⟨?_, ?_, ?_, ?_⟩
  · rw [arimaIterCount, hdef]; exact h1
  · rw [arimaConverged, hdef, h2]
    exact exists_congr fun k =>
      and_congr_right fun _ => (sqrt_lt_tol_iff (fitDiffSq x n k)).symm
  · rw [arimaIterCount, arimaConverged, hdef]; exact h4
  · rw [arimaIterCount, arimaConverged, hdef]; exact h3

/-! ## Claim C8 -/

/-- Raising a square to the source's `lambda = 0.5` power recovers the
nonnegative base. -/
theorem sq_rpow_half (y : ℝ) (hy : 0 ≤ y) :
    (y ^ 2) ^ ((lambdaBC : ℚ) : ℝ) = y := by
  rw [show ((lambdaBC : ℚ) : ℝ) = 1 / 2 by norm_num [lambdaBC],
    ← Real.rpow_natCast y 2, ← Real.rpow_mul hy,
    show ((2 : ℕ) : ℝ) * (1 / 2 : ℝ) = 1 by norm_num, Real.rpow_one]

/-- Claim C8: with `lambda` fixed at `0.5`, `boxcox_transform` writes
`result[i] = (data[i]^0.5 - 1) / 0.5` for every `i < n`; on the input
`[4, 9, 16]` it returns `[2, 4, 6]`. -/
theorem c8_boxcox_values (x res0 : RBuf) (n i : ℕ) (hi : i < n) :
    boxcox_transform x res0 n i = (x i ^ ((1 : ℝ) / 2) - 1) / ((1 : ℝ) / 2) ∧
    boxcox_transform sqBuf zeroRBuf 3 0 = 2 ∧
    boxcox_transform sqBuf zeroRBuf 3 1 = 4 ∧
    boxcox_transform sqBuf zeroRBuf 3 2 = 6 := by
  have hc : ((lambdaBC : ℚ) : ℝ) = 1 / 2 := by norm_num [lambdaBC]
  refine ⟨?_, ?_, ?_, ?_⟩
  · rw [boxcox_transform_apply, if_pos hi, hc]
  · rw [boxcox_transform_apply, if_pos (by norm_num),
      show sqBuf 0 = ((0 : ℝ) + 2) ^ 2 by norm_num [sqBuf],
      sq_rpow_half _ (by norm_num), hc]
    norm_num
  · rw [boxcox_transform_apply, if_pos (by norm_num),
      show sqBuf 1 = ((1 : ℝ) + 2) ^ 2 by norm_num [sqBuf],
      sq_rpow_half _ (by norm_num), hc]
    norm_num
  · rw [boxcox_transform_apply, if_pos (by norm_num),
      show sqBuf 2 = ((2 : ℝ) + 2) ^ 2 by norm_num [sqBuf],
      sq_rpow_half _ (by norm_num), hc]
    norm_num

/-- Witness for C8 at `i = 1 < n = 3` on the series `[4, 9, 16]`. -/
theorem c8_boxcox_values_witness :
    boxcox_transform sqBuf zeroRBuf 3 1 =
      (sqBuf 1 ^ ((1 : ℝ) / 2) - 1) / ((1 : ℝ) / 2) ∧
    boxcox_transform sqBuf zeroRBuf 3 0 = 2 ∧
    boxcox_transform sqBuf zeroRBuf 3 1 = 4 ∧
    boxcox_transform sqBuf zeroRBuf 3 2 = 6 :=
  c8_boxcox_values sqBuf zeroRBuf 3 1 (by norm_num)

/-! ## Claim C2 -/

/-- `pacfSelStep` against a live minimum is the source's strict comparison. -/
theorem pacfSelStep_some (m0 : ℚ) (l : ℕ) (a : ℚ) (k : ℕ) :
    pacfSelStep (some m0, l) a k = if a < m0 then (some a, k) else (some m0, l) := rfl

/-- Running-minimum invariant of the exploratory `pacf` pass: after `m ≥ 1`
iterations, `min_aic` holds the AIC score of `max_lag`, `max_lag` is one of
the `m` processed candidate orders, and that score is minimal among them. -/
theorem pacf_min_inv (x res0 phi0 : Buf) (g : ℚ) (rlog : ℚ → ℚ) (n : ℕ) :
    ∀ m, 1 ≤ m →
      (pacfStates x res0 phi0 g rlog n m).minAic =
        some (pacfAicAt x res0 phi0 g rlog n ((pacfStates x res0 phi0 g rlog n m).maxLag)) ∧
      (pacfStates x res0 phi0 g rlog n m).maxLag < m ∧
      ∀ j, j < m →
        pacfAicAt x res0 phi0 g rlog n ((pacfStates x res0 phi0 g rlog n m).maxLag) ≤
          pacfAicAt x res0 phi0 g rlog n j := by
  intro m
  induction m with
  | zero => intro h; exact absurd h (by omega)
  | succ m ih =>
    intro _
    rcases Nat.eq_zero_or_pos m with hm | hm
    · subst hm
      have hL : (pacfStates x res0 phi0 g rlog n (0 + 1)).maxLag = 0 := rfl
      refine ⟨rfl, by omega, ?_⟩
      intro j hj
      have hj0 : j = 0 := by omega
      subst hj0
      exact le_refl _
    · obtain ⟨ih1, ih2, ih3⟩ := ih hm
      have e1 : (pacfStates x res0 phi0 g rlog n (m + 1)).minAic =
          (pacfSelStep ((pacfStates x res0 phi0 g rlog n m).minAic,
            (pacfStates x res0 phi0 g rlog n m).maxLag)
            (pacfAicAt x res0 phi0 g rlog n m) m).1 := rfl
      have e2 : (pacfStates x res0 phi0 g rlog n (m + 1)).maxLag =
          (pacfSelStep ((pacfStates x res0 phi0 g rlog n m).minAic,
            (pacfStates x res0 phi0 g rlog n m).maxLag)
            (pacfAicAt x res0 phi0 g rlog n m) m).2 := rfl
      rw [ih1, pacfSelStep_some] at e1 e2
      by_cases hlt : pacfAicAt x res0 phi0 g rlog n m <
          pacfAicAt x res0 phi0 g rlog n ((pacfStates x res0 phi0 g rlog n m).maxLag)
      · rw [if_pos hlt] at e1 e2
        refine ⟨by rw [e1, e2], by omega, ?_⟩
        intro j hj
        rw [e2]
        rcases Nat.lt_succ_iff_lt_or_eq.mp hj with h | h
        · exact le_trans (le_of_lt hlt) (ih3 j h)
        · subst h
          exact le_refl _
      · rw [if_neg hlt] at e1 e2
        refine ⟨by rw [e1, e2], by omega, ?_⟩
        intro j hj
        rw [e2]
        rcases Nat.lt_succ_iff_lt_or_eq.mp hj with h | h
        · exact ih3 j h
        · subst h
          exact not_lt.mp hlt

/-- Claim C2: for every series of length `n ≥ 1`, the exploratory `pacf`
pass scores each candidate order `k < n` with
`AIC(k) = log(rss/n) + 2·(k+1)/n` (the rss of the order-`(k+1)` model), and
the selected `max_lag` attains the minimal score:
`AIC(max_lag) ≤ AIC(k)` for every candidate considered. -/
theorem c2_pacf_aic_selection (x res0 phi0 : Buf) (g : ℚ) (rlog : ℚ → ℚ)
    (n k : ℕ) (hn : 1 ≤ n) (hk : k < n) :
    pacfAicAt x res0 phi0 g rlog n k =
      rlog (pacfRssAt x res0 phi0 g rlog n k / n) + 2 * ((k : ℚ) + 1) / n ∧
    (pacfStates x res0 phi0 g rlog n n).minAic =
      some (pacfAicAt x res0 phi0 g rlog n ((pacfStates x res0 phi0 g rlog n n).maxLag)) ∧
    pacfAicAt x res0 phi0 g rlog n ((pacfStates x res0 phi0 g rlog n n).maxLag) ≤
      pacfAicAt x res0 phi0 g rlog n k := by
  obtain ⟨h1, _, h3⟩ := pacf_min_inv x res0 phi0 g rlog n n hn
  exact ⟨rfl, h1, h3 k hk⟩

/-- Witness for C2 at `n = 2`, `k = 1`, with `rlog = id` standing for the
abstract logarithm. -/
theorem c2_pacf_aic_selection_witness :
    pacfAicAt linBuf zeroBuf zeroBuf 0 id 2 1 =
      id (pacfRssAt linBuf zeroBuf zeroBuf 0 id 2 1 / ((2 : ℕ) : ℚ)) +
        2 * (((1 : ℕ) : ℚ) + 1) / ((2 : ℕ) : ℚ) ∧
    (pacfStates linBuf zeroBuf zeroBuf 0 id 2 2).minAic =
      some (pacfAicAt linBuf zeroBuf zeroBuf 0 id 2
        ((pacfStates linBuf zeroBuf zeroBuf 0 id 2 2).maxLag)) ∧
    pacfAicAt linBuf zeroBuf zeroBuf 0 id 2
        ((pacfStates linBuf zeroBuf zeroBuf 0 id 2 2).maxLag) ≤
      pacfAicAt linBuf zeroBuf zeroBuf 0 id 2 1 :=
  c2_pacf_aic_selection linBuf zeroBuf zeroBuf 0 id 2 1 (by decide) (by decide)

/-! ## Claim C5 -/

/-- The recomputation pass leaves every output index it does not list
untouched. -/
theorem pacfStep2_foldl_ne (r : ℤ → ℚ) (n : ℕ) :
    ∀ (l : List ℕ) (pr : Buf × Buf) (j : ℕ), (∀ a ∈ l, a ≠ j) →
      (l.foldl (pacfStep2 r n) pr).2 j = pr.2 j := by
  intro l
  induction l with
  | nil => intro pr j _; rfl
  | cons b t ih =>
    intro pr j h
    simp only [List.foldl_cons]
    rw [ih _ _ fun a ha => h a (List.mem_cons_of_mem b ha)]
    exact upd_ne _ _ _ _ (h b (List.mem_cons_self b t)).symm

/-- Claim C5: the recomputation pass of `pacf` writes only indices
`0..max_lag`; every output entry at an index beyond `max_lag` still holds
exactly the value left by the exploratory first pass. -/
theorem c5_pacf_stale_tail (x res0 phi0 : Buf) (g : ℚ) (rlog : ℚ → ℚ)
    (n k : ℕ) (hk : (pacfStates x res0 phi0 g rlog n n).maxLag < k) :
    pacf x res0 phi0 g rlog n k = (pacfStates x res0 phi0 g rlog n n).res k := by
  show ((List.range ((pacfStates x res0 phi0 g rlog n n).maxLag + 1)).foldl
      (pacfStep2 (pacfR x n g) n)
      ((pacfStates x res0 phi0 g rlog n n).phi,
        (pacfStates x res0 phi0 g rlog n n).res)).2 k =
    (pacfStates x res0 phi0 g rlog n n).res k
  apply pacfStep2_foldl_ne
  intro a ha
  rw [List.mem_range] at ha
  omega

/-- Witness for C5: at `n = 2` the selected order is below `2`, so output
index `2` keeps its exploratory value. -/
theorem c5_pacf_stale_tail_witness :
    pacf linBuf zeroBuf zeroBuf 0 id 2 2 =
      (pacfStates linBuf zeroBuf zeroBuf 0 id 2 2).res 2 :=
  c5_pacf_stale_tail linBuf zeroBuf zeroBuf 0 id 2 2
    ((pacf_min_inv linBuf zeroBuf zeroBuf 0 id 2 2 (by decide)).2.1)

/-! ## Claim C9 -/

/-- Claim C9: the coefficient division of `pacf` is guarded — a zero
denominator yields `phi[k] = 0` instead of a division (shown both on the
shared guard `levinson`, used by the exploratory and the recomputation pass
alike, and firing in an actual run on the zero series, whose `den` is `0`);
by contrast `linear_detrend` and `acf` divide unguarded: with every source
division checked, a one-element series makes `linear_detrend` divide by
`x_var = 0` and a constant series makes `acf` divide by zero variance, and
the degenerate division reaches the output. -/
theorem c9_division_guards (num : ℚ) :
    levinson num 0 = 0 ∧
    pacfDen (pacfR zeroBuf 2 5) zeroBuf 0 2 = 0 ∧
    (pacfStates zeroBuf zeroBuf zeroBuf 5 id 2 1).phi 0 = 0 ∧
    linear_detrendChecked sevenBuf 1 0 = none ∧
    acfChecked sevenBuf 2 0 = none ∧
    acfChecked sevenBuf 2 1 = none := by
  have hden : pacfDen (pacfR zeroBuf 2 5) zeroBuf 0 2 = 0 := by
    rw [pacfDen, Finset.range_eq_Ico.symm, Finset.sum_range_succ,
      Finset.sum_range_succ, Finset.sum_range_zero]
    norm_num [pacfY, pacfR, zeroBuf]
  refine ⟨by rw [levinson, if_pos rfl], hden, ?_, ?_, ?_, ?_⟩
  · show (upd zeroBuf 0 (pacfPhiK (pacfR zeroBuf 2 5) zeroBuf 0 2)) 0 = 0
    rw [upd_same, pacfPhiK, hden, levinson, if_pos rfl]
  · norm_num [linear_detrendChecked, fdiv, sevenBuf, Finset.sum_range_succ,
      Finset.sum_range_zero]
  · norm_num [acfChecked, fdiv, sevenBuf, Finset.sum_range_succ,
      Finset.sum_range_zero]
  · norm_num [acfChecked, fdiv, sevenBuf, Finset.sum_range_succ,
      Finset.sum_range_zero]

/-! ## Claim C10 -/

/-- `pacfSelStep` against the `INFINITY` initialisation always selects. -/
theorem pacfSelStep_none (l : ℕ) (a : ℚ) (k : ℕ) :
    pacfSelStep (none, l) a k = (some a, k) := rfl

/-- `linear_detrendH` stores only inside the output region. -/
theorem linear_detrendH_frame (H : Buf) (p q n a : ℕ)
    (h : ∀ i, i < n → a ≠ q + i) : linear_detrendH H p q n a = H a := by
  rw [linear_detrendH]
  exact foldl_upd_offset_ne
    (fun st i => st (p + i) -
      (lin_slope (fun b => H (p + b)) n * i + lin_intercept (fun b => H (p + b)) n))
    q (List.range n) H a fun i hi => h i (List.mem_range.mp hi)

/-- The heap-level ARMA prediction pass stores only inside the output region. -/
theorem arma_predict_passH_frame (H : Buf) (p q n : ℕ) (phi theta mu : ℚ)
    (a : ℕ) (h : ∀ i, i < n → a ≠ q + i) :
    arma_predict_passH H p q n phi theta mu a = H a := by
  rw [arma_predict_passH]
  refine foldl_upd_offset_ne
    (fun st i => mu + phi * st (p + (i - 1)) +
      theta * (st (p + i) - mu - phi * st (p + (i - 1)) -
        theta * (st (p + (i - 1)) - mu)))
    q (List.range' 1 (n - 1)) H a fun i hi => ?_
  rw [List.mem_range'_1] at hi
  exact h i (by omega)

/-- `acfH` stores only inside the output region (including the final halving
of `result[0]`, at address `q`). -/
theorem acfH_frame (H : Buf) (p q n a : ℕ)
    (h : ∀ i, i < n → a ≠ q + i) (h0 : a ≠ q) : acfH H p q n a = H a := by
  have h1 : ((List.range n).foldl
      (fun st i =>
        upd st (q + i)
          ((∑ j in Finset.Ico i n,
              (st (p + j) - acf_mean (fun b => H (p + b)) n) *
                (st (p + (j - i)) - acf_mean (fun b => H (p + b)) n)) /
            (((n : ℚ) - i) * acf_var (fun b => H (p + b)) n)))
      H) a = H a :=
    foldl_upd_offset_ne _ q (List.range n) H a fun i hi => h i (List.mem_range.mp hi)
  simp only [acfH]
  rw [upd_ne _ _ _ _ h0]
  exact h1

/-- The heap-level exploratory `pacf` pass stores only at listed offsets. -/
theorem pacfStepH_foldl_heap_ne (rlog : ℚ → ℚ) (r : ℤ → ℚ) (n q : ℕ) :
    ∀ (l : List ℕ) (s : PacfStH) (a : ℕ), (∀ k ∈ l, a ≠ q + k) →
      (l.foldl (pacfStepH rlog r n q) s).heap a = s.heap a := by
  intro l
  induction l with
  | nil => intro s a _; rfl
  | cons b t ih =>
    intro s a h
    simp only [List.foldl_cons]
    rw [ih _ _ fun k hk => h k (List.mem_cons_of_mem b hk)]
    exact upd_ne _ _ _ _ (h b (List.mem_cons_self b t))

/-- After the exploratory pass, `max_lag` is the initial value or one of the
processed candidate orders. -/
theorem pacfStepH_foldl_maxLag (rlog : ℚ → ℚ) (r : ℤ → ℚ) (n q : ℕ) :
    ∀ (l : List ℕ) (s : PacfStH),
      (l.foldl (pacfStepH rlog r n q) s).maxLag = s.maxLag ∨
      (l.foldl (pacfStepH rlog r n q) s).maxLag ∈ l := by
  intro l
  induction l with
  | nil => intro s; exact Or.inl rfl
  | cons b t ih =>
    intro s
    have hstep : (pacfStepH rlog r n q s b).maxLag = b ∨
        (pacfStepH rlog r n q s b).maxLag = s.maxLag := by
      show (pacfSelStep (s.minAic, s.maxLag) (pacfAicK rlog r s.phi b n) b).2 = b ∨
        (pacfSelStep (s.minAic, s.maxLag) (pacfAicK rlog r s.phi b n) b).2 = s.maxLag
      cases s.minAic with
      | none => exact Or.inl rfl
      | some m0 =>
        by_cases hc : pacfAicK rlog r s.phi b n < m0
        · rw [pacfSelStep_some, if_pos hc]
          exact Or.inl rfl
        · rw [pacfSelStep_some, if_neg hc]
          exact Or.inr rfl
    simp only [List.foldl_cons]
    rcases ih (pacfStepH rlog r n q s b) with h | h
    · rcases hstep with hb | hs
      · exact Or.inr (by rw [h, hb]; exact List.mem_cons_self b t)
      · exact Or.inl (by rw [h, hs])
    · exact Or.inr (List.mem_cons_of_mem b h)

/-- The heap-level recomputation pass stores only at listed offsets. -/
theorem pacfStep2H_foldl_ne (r : ℤ → ℚ) (n q : ℕ) :
    ∀ (l : List ℕ) (pr : Buf × Buf) (a : ℕ), (∀ k ∈ l, a ≠ q + k) →
      (l.foldl (pacfStep2H r n q) pr).2 a = pr.2 a := by
  intro l
  induction l with
  | nil => intro pr a _; rfl
  | cons b t ih =>
    intro pr a h
    simp only [List.foldl_cons]
    rw [ih _ _ fun k hk => h k (List.mem_cons_of_mem b hk)]
    exact upd_ne _ _ _ _ (h b (List.mem_cons_self b t))

/-- `pacfH` stores only inside the output region. -/
theorem pacfH_frame (H : Buf) (p q n : ℕ) (g : ℚ) (phi0 : Buf) (rlog : ℚ → ℚ)
    (a : ℕ) (h : ∀ i, i < n → a ≠ q + i) (h0 : a ≠ q) :
    pacfH H p q n g phi0 rlog a = H a := by
  have hheap : (pacfPass1H H p q n g phi0 rlog).heap a = H a :=
    pacfStepH_foldl_heap_ne rlog (pacfR (fun b => H (p + b)) n g) n q
      (List.range n) ⟨phi0, H, none, 0⟩ a fun k hk => h k (List.mem_range.mp hk)
  have hmax := pacfStepH_foldl_maxLag rlog (pacfR (fun b => H (p + b)) n g) n q
    (List.range n) ⟨phi0, H, none, 0⟩
  rw [pacfH, pacfStep2H_foldl_ne]
  · exact hheap
  · intro k hk
    rw [List.mem_range] at hk
    rcases hmax with hm | hm
    · have hm0 : (pacfPass1H H p q n g phi0 rlog).maxLag = 0 := hm
      have hk0 : k = 0 := by omega
      subst hk0
      simpa using h0
    · rw [List.mem_range] at hm
      have hmn : (pacfPass1H H p q n g phi0 rlog).maxLag < n := hm
      exact h k (by omega)

/-- `boxcox_transformH` stores only inside the output region. -/
theorem boxcox_transformH_frame (G : RBuf) (p q n a : ℕ)
    (h : ∀ i, i < n → a ≠ q + i) : boxcox_transformH G p q n a = G a := by
  rw [boxcox_transformH]
  exact foldl_upd_offset_ne
    (fun st i =>
      if lambdaBC = 0 then Real.log (st (p + i))
      else (st (p + i) ^ (lambdaBC : ℝ) - 1) / (lambdaBC : ℝ))
    q (List.range n) G a fun i hi => h i (List.mem_range.mp hi)

/-- Claim C10: with input region `[p, p+n)` and output region `[q, q+n)`
disjoint (the caller's non-aliasing assumption), every entry point leaves
every input-buffer cell unchanged: all stores land in the output region.
`arima_setParamsH` receives the byte length `4n` for an `n`-element region. -/
theorem c10_inputs_preserved (H : Buf) (G : RBuf) (p q n j : ℕ) (g : ℚ)
    (phi0 : Buf) (rlog : ℚ → ℚ)
    (hal : ∀ a, a < n → ∀ b, b < n → p + a ≠ q + b) (hj : j < n) :
    linear_detrendH H p q n (p + j) = H (p + j) ∧
    arima_autoParamsH H p q n (p + j) = H (p + j) ∧
    arima_setParamsH H p q (4 * n) (p + j) = H (p + j) ∧
    acfH H p q n (p + j) = H (p + j) ∧
    pacfH H p q n g phi0 rlog (p + j) = H (p + j) ∧
    boxcox_transformH G p q n (p + j) = G (p + j) := by
  have hin : ∀ i, i < n → p + j ≠ q + i := fun i hi => hal j hj i hi
  have h0 : p + j ≠ q := by
    have := hal j hj 0 (by omega)
    simpa using this
  refine ⟨linear_detrendH_frame H p q n _ hin, ?_, ?_,
    acfH_frame H p q n _ hin h0, pacfH_frame H p q n g phi0 rlog _ hin h0,
    boxcox_transformH_frame G p q n _ hin⟩
  · rw [arima_autoParamsH]
    exact arma_predict_passH_frame H p q n _ _ _ _ hin
  · rw [arima_setParamsH, (by omega : 4 * n / 4 = n)]
    exact arma_predict_passH_frame H p q n _ _ _ _ hin

/-- Witness for C10 with disjoint regions `[0, 3)` and `[10, 13)` at `j = 1`. -/
theorem c10_inputs_preserved_witness :
    linear_detrendH linBuf 0 10 3 (0 + 1) = linBuf (0 + 1) ∧
    arima_autoParamsH linBuf 0 10 3 (0 + 1) = linBuf (0 + 1) ∧
    arima_setParamsH linBuf 0 10 (4 * 3) (0 + 1) = linBuf (0 + 1) ∧
    acfH linBuf 0 10 3 (0 + 1) = linBuf (0 + 1) ∧
    pacfH linBuf 0 10 3 0 zeroBuf id (0 + 1) = linBuf (0 + 1) ∧
    boxcox_transformH sevenRBuf 0 10 3 (0 + 1) = sevenRBuf (0 + 1) :=
  c10_inputs_preserved linBuf sevenRBuf 0 10 3 1 0 zeroBuf id (by decide) (by decide)

end ArimaC
